import Mathlib

/-!
Verification of the OSPF cost synthesizer (`synet/synthesis/ospf.py`,
class `OSPFSyn`).

The Python code builds Z3 constraints over two uninterpreted functions,
`EdgePhyOSPF` (edge existence, boolean) and `OSPFEdgeCost` (edge cost,
integer), from a networkx 1.x directed graph, pushes strict-inequality
constraints for operator-required paths against all alternative simple
paths, and decodes a satisfying Z3 model back into three output views.

The embedding below mirrors the source:
* a networkx 1.x `DiGraph` is a node-attribute dictionary together with an
  adjacency structure; the two are stored separately, exactly as in
  networkx 1.x, because the source mutates the node dictionary directly
  (`del g.node[node]`), which in networkx 1.x removes the node from the
  node listing but leaves the adjacency (and hence the edge set) intact;
* Z3 terms and formulas are embedded deeply; a Z3 model is a pair of total
  functions, one boolean-valued and one integer-valued, over vertex pairs
  (a Z3 model always evaluates a declared function application of the
  asserted functions to a concrete value);
* the vertex registry of `synet.utils.common` maps names to Z3 vertices
  bijectively, so vertices are identified with their names and the
  registry `name_to_vertex` is a list of names.
-/

/-- Node names.  The vertex registry of the original code
(`synet.utils.common`, outside the synthesized core) maps names to Z3
vertices bijectively; vertices are identified with their names. -/
abbrev V := String

/-- Modelled from the spec: the router type tag (`NODE_TYPE` of
`synet.utils.common`); only nodes carrying this tag survive graph
loading.  The concrete string value is irrelevant, only its inequality
with other tags matters. -/
def NODE_TYPE : String := "node"

/-- Modelled from the spec: a fixed-cost edge specification
(`SetOSPFEdgeCost` of `synet.utils.common`): source, destination and the
prescribed integer cost. -/
structure SetOSPFEdgeCost where
  src : V
  dst : V
  cost : Int
deriving DecidableEq, Repr

/-- Modelled from the spec: a path requirement (`PathReq` of
`synet.utils.common`): an ordered sequence of node names from its first
to its last element. -/
structure PathReq where
  path : List V
deriving DecidableEq, Repr

/-- A networkx 1.x directed graph as the source uses it.  `nodeList` is
the node-attribute dictionary (name, optional vertex-type tag: `none`
models a node whose data lacks the `VERTEX_TYPE` key); `edgeList` is the
adjacency structure (src, dst, optional `cost` attribute).  networkx 1.x
stores the two separately: node listing and node membership read the node
dictionary, while edge queries, successor listing and simple-path
enumeration read the adjacency. -/
structure DiGraph where
  nodeList : List (V × Option String)
  edgeList : List (V × V × Option Int)
deriving DecidableEq, Repr

/-- Nodes of a graph, as listed by `g.nodes()`. -/
def nodesOf (g : DiGraph) : List V := g.nodeList.map Prod.fst

/-- Node membership, as tested by `node in g`. -/
def hasNodeB (g : DiGraph) (v : V) : Bool := (nodesOf g).contains v

/-- Edge membership, as tested by `g.has_edge(u, v)` (reads adjacency). -/
def hasEdgeB (g : DiGraph) (u v : V) : Bool :=
  g.edgeList.any (fun e => e.1 == u && e.2.1 == v)

/-- Successor listing, as `G[u]` (reads adjacency). -/
def succsOf (g : DiGraph) (u : V) : List V :=
  g.edgeList.filterMap (fun e => if e.1 == u then some e.2.1 else none)

/-- The optional `cost` attribute of edge (u, v), as
`g.edge[u][v].get(&quot;cost&quot;, None)`. -/
def getCostAttr (g : DiGraph) (u v : V) : Option Int :=
  (g.edgeList.find? (fun e => e.1 == u && e.2.1 == v)).bind (fun e => e.2.2)

/-- The effect of `del g.node[node]` in networkx 1.x: the node is removed
from the node dictionary only; the adjacency, and with it every incident
edge, stays behind. -/
def delNode (g : DiGraph) (v : V) : DiGraph :=
  { g with nodeList := g.nodeList.filter (fun n => !(n.1 == v)) }

/-- Loop body of `OSPFSyn._load_graph`: iterate the snapshot of
`g.nodes(data=True)`; a node whose data lacks the `VERTEX_TYPE` key makes
the subscript `data[VERTEX_TYPE]` raise `KeyError`; a node whose tag is
not `NODE_TYPE` is deleted from the node dictionary. -/
def loadGraphAux : List (V × Option String) → DiGraph → Except String DiGraph
  | [], g => .ok g
  | (_, none) :: _, _ => .error "KeyError: VERTEX_TYPE"
  | (n, some t) :: rest, g =>
      loadGraphAux rest (if t ≠ NODE_TYPE then delNode g n else g)

/-- `OSPFSyn._load_graph`: copy the input graph and filter it to
router-type nodes (see `loadGraphAux` for the exact loop semantics). -/
def loadGraph (g0 : DiGraph) : Except String DiGraph :=
  loadGraphAux g0.nodeList g0

/-- Write a fixed cost into the edge attribute dictionary, as
`self.network_graph.edge[src][dst]['cost'] = int(cost)`. -/
def setEdgeCostAttr (g : DiGraph) (u v : V) (c : Int) : DiGraph :=
  { g with edgeList := g.edgeList.map (fun e =>
      if e.1 == u && e.2.1 == v then (e.1, e.2.1, some c) else e) }

/-- First loop of `OSPFSyn._read_input_graph`: annotate the network graph
with the costs given by the `SetOSPFEdgeCost` initial configurations.
Subscripting `edge[src][dst]` on a missing edge raises `KeyError`. -/
def annotateConfigs : List SetOSPFEdgeCost → DiGraph → Except String DiGraph
  | [], g => .ok g
  | cfg :: rest, g =>
      if hasEdgeB g cfg.src cfg.dst then
        annotateConfigs rest (setEdgeCostAttr g cfg.src cfg.dst cfg.cost)
      else .error "KeyError: edge"

/-- Deep embedding of the Z3 integer terms the source builds: integer
literals, applications `OSPFEdgeCost(u, v)` of the symbolic cost
function, and sums. -/
inductive Term where
  | lit (c : Int)
  | edgeCost (u v : V)
  | add (a b : Term)
deriving DecidableEq, Repr

/-- Deep embedding of the Z3 formulas the source asserts:
`edge(u, v)`, `Not(edge(u, v))`, `cost(u, v) == c`, `cost(u, v) >= 0`
and strict comparisons of path-cost terms. -/
inductive Formula where
  | edgeF (u v : V)
  | notEdgeF (u v : V)
  | costEq (u v : V) (c : Int)
  | costGe0 (u v : V)
  | ltF (a b : Term)
deriving DecidableEq, Repr

/-- A Z3 model restricted to the two asserted functions: a total boolean
interpretation of `EdgePhyOSPF` and a total integer interpretation of
`OSPFEdgeCost`. -/
structure Model where
  edgeB : V → V → Bool
  costF : V → V → Int

/-- Model evaluation of a term. -/
def evalTerm (m : Model) : Term → Int
  | .lit c => c
  | .edgeCost u v => m.costF u v
  | .add a b => evalTerm m a + evalTerm m b

/-- Model evaluation of a formula. -/
def satisfies (m : Model) : Formula → Bool
  | .edgeF u v => m.edgeB u v
  | .notEdgeF u v => !(m.edgeB u v)
  | .costEq u v c => m.costF u v == c
  | .costGe0 u v => decide (0 ≤ m.costF u v)
  | .ltF a b => decide (evalTerm m a < evalTerm m b)

/-- A model satisfies a list of asserted formulas. -/
def satisfiesAll (m : Model) (fs : List Formula) : Bool :=
  fs.all (satisfies m)

/-- The assertions of `OSPFSyn._read_input_graph` for one ordered node
pair: if the graph has the edge, assert `edge(u, v)` and then either
`cost(u, v) == c` when the `cost` attribute is present and truthy (a
Python `if cost:` test, so an attribute equal to `0` counts as absent) or
`cost(u, v) >= 0`; otherwise assert `Not(edge(u, v))`. -/
def edgeAssertions (g : DiGraph) (u v : V) : List Formula :=
  if hasEdgeB g u v then
    Formula.edgeF u v ::
      (match getCostAttr g u v with
       | some c => if c ≠ 0 then [Formula.costEq u v c] else [Formula.costGe0 u v]
       | none => [Formula.costGe0 u v])
  else [Formula.notEdgeF u v]

/-- Second part of `OSPFSyn._read_input_graph`: the baseline constraint
set, looping over all ordered pairs of graph nodes and skipping any
endpoint found in `self.network_names`. -/
def baselineFormulas (g : DiGraph) (networkNames : List V) : List Formula :=
  (nodesOf g).flatMap (fun src =>
    if src ∈ networkNames then []
    else (nodesOf g).flatMap (fun dst =>
      if dst ∈ networkNames then [] else edgeAssertions g src dst))

/-- `OSPFSyn._read_input_graph` in full: annotate the graph with the
initial configurations, then produce the baseline constraints over the
annotated graph. -/
def readInputGraph (cfgs : List SetOSPFEdgeCost) (g : DiGraph)
    (networkNames : List V) : Except String (DiGraph × List Formula) := do
  let g1 ← annotateConfigs cfgs g
  pure (g1, baselineFormulas g1 networkNames)

/-- `OSPFSyn.add_path_req`: assert the argument is a `PathReq` (its type
already guarantees this here) and append it; no other validation. -/
def addPathReq (reqs : List PathReq) (req : PathReq) : List PathReq :=
  reqs ++ [req]

/-- `OSPFSyn._get_edge_cost`: read the `cost` attribute with default 0;
a positive value is returned as a literal, otherwise the symbolic cost
function is returned.  The subscript `self.network_graph[src][dst]`
raises `KeyError` when the adjacency has no such edge. -/
def getEdgeCostTerm (g : DiGraph) (u v : V) : Except String Term :=
  if hasEdgeB g u v then
    let c := (getCostAttr g u v).getD 0
    if c > 0 then .ok (Term.lit c) else .ok (Term.edgeCost u v)
  else .error "KeyError: cost"

/-- The consecutive pairs of a path. -/
def pathPairs : List V → List (V × V)
  | u :: v :: rest => (u, v) :: pathPairs (v :: rest)
  | _ => []

/-- The `edge_costs` list built by the loop of `OSPFSyn._get_path_cost`:
one cost term per consecutive pair, the first failing lookup raising. -/
def edgeTermsOf (g : DiGraph) : List (V × V) → Except String (List Term)
  | [] => .ok []
  | uv :: rest => do
      let t ← getEdgeCostTerm g uv.1 uv.2
      let ts ← edgeTermsOf g rest
      pure (t :: ts)

/-- `OSPFSyn._get_path_cost`: Python `sum` of the per-edge cost terms of
the consecutive pairs, starting from the integer 0. -/
def getPathCost (g : DiGraph) (p : List V) : Except String Term := do
  let ts ← edgeTermsOf g (pathPairs p)
  pure (ts.foldl Term.add (Term.lit 0))

/-- One step of `nx.all_simple_paths` as implemented in networkx 1.x:
depth-first extension of the visited list `pre ++ [cur]`, yielding
`pre ++ [cur, tgt]` whenever the target is a successor of `cur`, and
recursing into unvisited non-target successors while fuel (the remaining
cutoff) lasts. -/
def simplePathsAux (g : DiGraph) (tgt : V) : Nat → List V → V → List (List V)
  | 0, _, _ => []
  | fuel + 1, pre, cur =>
      (succsOf g cur).flatMap (fun child =>
        if child == tgt then [pre ++ [cur, tgt]]
        else if pre.contains child || child == cur then []
        else simplePathsAux g tgt fuel (pre ++ [cur]) child)

/-- `nx.all_simple_paths(g, src, tgt)` of networkx 1.x: raises when an
endpoint is not a graph node (callers below model that separately), and
enumerates, with the default cutoff `len(g) - 1` on the number of edges,
every simple path from `src` to `tgt` through the adjacency. -/
def allSimplePaths (g : DiGraph) (src tgt : V) : List (List V) :=
  if hasNodeB g src && hasNodeB g tgt then
    simplePathsAux g tgt ((nodesOf g).length - 1) [] src
  else []

/-- Inner loop of `OSPFSyn.push_requirements` over the enumerated
alternative simple paths: every alternative different from the required
path contributes the assertion `path_cost < simple_path_cost`. -/
def altConstraints (g : DiGraph) (p : List V) (pc : Term) :
    List (List V) → Except String (List Formula)
  | [] => .ok []
  | sp :: sps =>
      if sp = p then altConstraints g p pc sps
      else do
        let spc ← getPathCost g sp
        let rest ← altConstraints g p pc sps
        pure (Formula.ltF pc spc :: rest)

/-- `OSPFSyn.push_requirements`, one requirement: read `path[0]` and
`path[-1]` (an empty path raises `IndexError`), build the symbolic path
cost, then enumerate all simple paths between the endpoints
(`nx.all_simple_paths` raises when an endpoint is not a graph node) and
assert the strict inequalities. -/
def pushReq (g : DiGraph) (req : PathReq) : Except String (List Formula) :=
  match req.path with
  | [] => .error "IndexError: list index out of range"
  | x :: xs => do
      let src := x
      let dst := (x :: xs).getLast (List.cons_ne_nil x xs)
      let pc ← getPathCost g (x :: xs)
      if hasNodeB g src && hasNodeB g dst then
        altConstraints g (x :: xs) pc (allSimplePaths g src dst)
      else .error "NetworkXError: node not in graph"

/-- `OSPFSyn.push_requirements` over the registered requirement list (the
`solver.push()` checkpoint only scopes the assertions and the returned
elapsed time is irrelevant to the constraint set, so the function is the
list of formulas asserted into the push scope). -/
def pushRequirements (g : DiGraph) : List PathReq → Except String (List Formula)
  | [] => .ok []
  | r :: rs => do
      let fs ← pushReq g r
      let rest ← pushRequirements g rs
      pure (fs ++ rest)

/-- Modelled from the spec: the vertex-attribute lookup
(`_get_vertex_attributes` of `synet.utils.common`) reduced to the
vertex-type tag of the node in the given graph, if any. -/
def lookupAttr (g : DiGraph) (v : V) : Option String :=
  (g.nodeList.find? (fun n => n.1 == v)).bind (fun n => n.2)

/-- `OSPFSyn.get_output_configs`: iterate every ordered pair of
registered vertices, keep those whose edge predicate the model evaluates
to true, and read the model value of the cost function. -/
def getOutputConfigs (m : Model) (registry : List V) : List SetOSPFEdgeCost :=
  registry.flatMap (fun src =>
    registry.filterMap (fun dst =>
      if m.edgeB src dst then some ⟨src, dst, m.costF src dst⟩ else none))

/-- `OSPFSyn.get_output_network_graph`: a fresh directed graph whose
nodes are all registered vertices (with their attributes looked up in
the engine's network graph) and whose edges are the model-true pairs,
annotated with the model value of the cost function. -/
def getOutputNetworkGraph (m : Model) (registry : List V) (g : DiGraph) :
    DiGraph :=
  { nodeList := registry.map (fun v => (v, lookupAttr g v)),
    edgeList := registry.flatMap (fun src =>
      registry.filterMap (fun dst =>
        if m.edgeB src dst then some (src, dst, some (m.costF src dst))
        else none)) }

/-- Modelled from the spec: `nx.has_path(g, u, v)` of the graph-library
collaborator, for `u` a node of `g`: true when `u = v`, or when some
simple path joins them. -/
def hasPathB (g : DiGraph) (u v : V) : Bool :=
  (u == v && hasNodeB g u) || !(allSimplePaths g u v).isEmpty

/-- Total weight of a path under the `cost` edge attribute, missing
attributes counting 1, as `nx.shortest_path` with `weight='cost'`
weighs them. -/
def pathWeight (g : DiGraph) (p : List V) : Int :=
  ((pathPairs p).map (fun uv => (getCostAttr g uv.1 uv.2).getD 1)).sum

/-- Least-weight element of a list of candidate paths. -/
def minByWeight (g : DiGraph) : List (List V) → Option (List V)
  | [] => none
  | p :: ps => some (ps.foldl
      (fun best q => if pathWeight g q < pathWeight g best then q else best) p)

/-- Modelled from the spec: `nx.shortest_path(g, src, dst, 'cost')` of
the graph-library collaborator: the trivial path when the endpoints
coincide, otherwise a minimum-cost simple path between them. -/
def shortestPathD (g : DiGraph) (src dst : V) : List V :=
  if src = dst then [src]
  else (minByWeight g (allSimplePaths g src dst)).getD []

/-- Add one node to an output graph unless present, as
`if not g.has_node(n): g.add_node(n, ...)`. -/
def addNodeD (t : DiGraph) (v : V) (attr : Option String) : DiGraph :=
  if hasNodeB t v then t else { t with nodeList := t.nodeList ++ [(v, attr)] }

/-- Add or overwrite one edge of an output graph, as `g.add_edge`. -/
def addEdgeD (t : DiGraph) (u v : V) (c : Option Int) : DiGraph :=
  if hasEdgeB t u v then
    { t with edgeList := t.edgeList.map (fun e =>
        if e.1 == u && e.2.1 == v then (u, v, c) else e) }
  else { t with edgeList := t.edgeList ++ [(u, v, c)] }

/-- Record one shortest path into a per-destination routing tree: for
every consecutive pair, add the endpoints (attributes looked up in the
output network graph) and the edge, whose cost is read from the model. -/
def addTreePath (m : Model) (gphy : DiGraph) (t : DiGraph) (p : List V) :
    DiGraph :=
  (pathPairs p).foldl (fun t uv =>
    let t1 := addNodeD t uv.1 (lookupAttr gphy uv.1)
    let t2 := addNodeD t1 uv.2 (lookupAttr gphy uv.2)
    addEdgeD t2 uv.1 uv.2 (some (m.costF uv.1 uv.2))) t

/-- Body of `OSPFSyn.get_output_routing_graphs` for one destination:
fold over the registered vertices, skipping those with no path to the
destination in the output network graph, and record the cost-weighted
shortest path of each remaining vertex. -/
def routingTreeFor (m : Model) (gphy : DiGraph) (registry : List V)
    (dstName : V) : DiGraph :=
  registry.foldl (fun t node =>
    if hasPathB gphy node dstName then
      addTreePath m gphy t (shortestPathD gphy node dstName)
    else t) ⟨[], []⟩

/-- `OSPFSyn.get_output_routing_graphs`: one routing tree per destination
network, each built over the output network graph. -/
def getOutputRoutingGraphs (m : Model) (registry : List V)
    (networks : List V) (g : DiGraph) : List (V × DiGraph) :=
  let gphy := getOutputNetworkGraph m registry g
  networks.map (fun d => (d, routingTreeFor m gphy registry d))

/-- The solver-session state the read-side contracts consume: the model
of the last satisfiable check together with the registry, the network
list and the engine's network graph.  None of the three read-side
methods pushes, pops, asserts or re-checks, so each is a pure read of
this state. -/
structure Session where
  model : Model
  registry : List V
  networks : List V
  graph : DiGraph

/-- `get_output_configs` as a state transaction: returns its output and
the (unmodified) session. -/
def getOutputConfigsS (s : Session) : List SetOSPFEdgeCost × Session :=
  (getOutputConfigs s.model s.registry, s)

/-- `get_output_network_graph` as a state transaction. -/
def getOutputNetworkGraphS (s : Session) : DiGraph × Session :=
  (getOutputNetworkGraph s.model s.registry s.graph, s)

/-- `get_output_routing_graphs` as a state transaction. -/
def getOutputRoutingGraphsS (s : Session) : List (V × DiGraph) × Session :=
  (getOutputRoutingGraphs s.model s.registry s.networks s.graph, s)

/-- The sum of the model-resolved costs of the consecutive edges of a
path: the quantity the specification calls the sum of resolved edge
costs along the path. -/
def resolvedSum (m : Model) (p : List V) : Int :=
  ((pathPairs p).map (fun uv => m.costF uv.1 uv.2)).sum

/-- A simple path of a graph: at least two nodes, no repeated node, every
consecutive pair an edge. -/
def IsSimplePath (g : DiGraph) (p : List V) : Prop :=
  2 ≤ p.length ∧ p.Nodup ∧ ∀ uv ∈ pathPairs p, hasEdgeB g uv.1 uv.2 = true

/-! ### Basic facts about the graph accessors -/

theorem mem_succsOf_iff (g : DiGraph) (u v : V) :
    v ∈ succsOf g u ↔ hasEdgeB g u v = true := by
  unfold succsOf hasEdgeB
  rw [List.mem_filterMap, List.any_eq_true]
  constructor
  · rintro ⟨e, he, hfe⟩
    refine ⟨e, he, ?_⟩
    by_cases h1 : e.1 == u
    · simp only [h1, if_true] at hfe
      cases hfe
      simp [h1]
    · simp [h1] at hfe
  · rintro ⟨e, he, hfe⟩
    refine ⟨e, he, ?_⟩
    have h1 : (e.1 == u) = true := ((Bool.and_eq_true _ _).mp hfe).1
    have h2 : (e.2.1 == v) = true := ((Bool.and_eq_true _ _).mp hfe).2
    simp [h1, eq_of_beq h2]

theorem satisfiesAll_mem {m : Model} {fs : List Formula} {φ : Formula}
    (hall : satisfiesAll m fs = true) (hmem : φ ∈ fs) : satisfies m φ = true := by
  unfold satisfiesAll at hall
  rw [List.all_eq_true] at hall
  exact hall φ hmem

/-! ### Facts about consecutive pairs of a path -/

theorem pathPairs_cons_cons (a b : V) (l : List V) :
    pathPairs (a :: b :: l) = (a, b) :: pathPairs (b :: l) := rfl

theorem mem_of_mem_pathPairs {p : List V} {uv : V × V}
    (h : uv ∈ pathPairs p) : uv.1 ∈ p ∧ uv.2 ∈ p := by
  induction p with
  | nil => simp [pathPairs] at h
  | cons a l ih =>
      cases l with
      | nil => simp [pathPairs] at h
      | cons b l2 =>
          rw [pathPairs_cons_cons] at h
          rcases List.mem_cons.mp h with h1 | h1
          · subst h1
            exact ⟨List.mem_cons_self _ _, List.mem_cons_of_mem _ (List.mem_cons_self _ _)⟩
          · have := ih h1
            exact ⟨List.mem_cons_of_mem _ this.1, List.mem_cons_of_mem _ this.2⟩

theorem pathPairs_subset_cons (a : V) (l : List V) :
    pathPairs l ⊆ pathPairs (a :: l) := by
  cases l with
  | nil => intro x hx; simp [pathPairs] at hx
  | cons b l2 =>
      rw [pathPairs_cons_cons]
      exact List.subset_cons_self _ _

theorem pathPairs_subset_append (l1 l2 : List V) :
    pathPairs l2 ⊆ pathPairs (l1 ++ l2) := by
  induction l1 with
  | nil => simp
  | cons a l1 ih =>
      intro x hx
      exact pathPairs_subset_cons a (l1 ++ l2) (ih hx)

theorem pathPairs_append_cons (l1 : List V) (x : V) (l2 : List V) :
    pathPairs (x :: l2) ⊆ pathPairs (l1 ++ x :: l2) :=
  pathPairs_subset_append l1 (x :: l2)

/-! ### Membership in the baseline constraint set -/

theorem mem_baselineFormulas {g : DiGraph} {nn : List V} {u v : V} {φ : Formula}
    (hu : u ∈ nodesOf g) (hv : v ∈ nodesOf g)
    (hun : u ∉ nn) (hvn : v ∉ nn)
    (hφ : φ ∈ edgeAssertions g u v) : φ ∈ baselineFormulas g nn := by
  unfold baselineFormulas
  rw [List.mem_flatMap]
  refine ⟨u, hu, ?_⟩
  rw [if_neg hun, List.mem_flatMap]
  refine ⟨v, hv, ?_⟩
  rw [if_neg hvn]
  exact hφ

theorem baseline_edge_true {m : Model} {g : DiGraph} {nn : List V} {u v : V}
    (hsat : satisfiesAll m (baselineFormulas g nn) = true)
    (hu : u ∈ nodesOf g) (hv : v ∈ nodesOf g) (hun : u ∉ nn) (hvn : v ∉ nn)
    (he : hasEdgeB g u v = true) : m.edgeB u v = true := by
  have hmem : Formula.edgeF u v ∈ edgeAssertions g u v := by
    unfold edgeAssertions
    rw [if_pos he]
    exact List.mem_cons_self _ _
  have := satisfiesAll_mem hsat (mem_baselineFormulas hu hv hun hvn hmem)
  simpa [satisfies] using this

theorem baseline_edge_false {m : Model} {g : DiGraph} {nn : List V} {u v : V}
    (hsat : satisfiesAll m (baselineFormulas g nn) = true)
    (hu : u ∈ nodesOf g) (hv : v ∈ nodesOf g) (hun : u ∉ nn) (hvn : v ∉ nn)
    (he : hasEdgeB g u v = false) : m.edgeB u v = false := by
  have hmem : Formula.notEdgeF u v ∈ edgeAssertions g u v := by
    unfold edgeAssertions
    rw [if_neg (by simp [he])]
    exact List.mem_cons_self _ _
  have := satisfiesAll_mem hsat (mem_baselineFormulas hu hv hun hvn hmem)
  simpa [satisfies] using this

theorem baseline_costEq {m : Model} {g : DiGraph} {nn : List V} {u v : V} {c : Int}
    (hsat : satisfiesAll m (baselineFormulas g nn) = true)
    (hu : u ∈ nodesOf g) (hv : v ∈ nodesOf g) (hun : u ∉ nn) (hvn : v ∉ nn)
    (he : hasEdgeB g u v = true)
    (hc : getCostAttr g u v = some c) (hcne : c ≠ 0) : m.costF u v = c := by
  have hmem : Formula.costEq u v c ∈ edgeAssertions g u v := by
    unfold edgeAssertions
    rw [if_pos he, hc]
    simp only [if_pos hcne]
    exact List.mem_cons_of_mem _ (List.mem_cons_self _ _)
  have := satisfiesAll_mem hsat (mem_baselineFormulas hu hv hun hvn hmem)
  simpa [satisfies] using this

/-! ### Evaluation of the symbolic path cost -/

theorem getEdgeCostTerm_eval {m : Model} {g : DiGraph} {nn : List V} {u v : V}
    (hsat : satisfiesAll m (baselineFormulas g nn) = true)
    (hu : u ∈ nodesOf g) (hv : v ∈ nodesOf g) (hun : u ∉ nn) (hvn : v ∉ nn)
    (he : hasEdgeB g u v = true) :
    ∃ t, getEdgeCostTerm g u v = .ok t ∧ evalTerm m t = m.costF u v := by
  unfold getEdgeCostTerm
  rw [if_pos he]
  cases hc : getCostAttr g u v with
  | none =>
      refine ⟨Term.edgeCost u v, ?_, rfl⟩
      simp [hc]
  | some c =>
      by_cases hgt : c > 0
      · refine ⟨Term.lit c, ?_, ?_⟩
        · simp [hc, hgt]
        · have := baseline_costEq hsat hu hv hun hvn he hc (by omega)
          simp [evalTerm, this]
      · refine ⟨Term.edgeCost u v, ?_, rfl⟩
        simp [hc, hgt]

theorem edgeTermsOf_eval {m : Model} {g : DiGraph} {nn : List V}
    (hsat : satisfiesAll m (baselineFormulas g nn) = true) :
    ∀ l : List (V × V),
      (∀ uv ∈ l, uv.1 ∈ nodesOf g ∧ uv.2 ∈ nodesOf g ∧ uv.1 ∉ nn ∧ uv.2 ∉ nn ∧
        hasEdgeB g uv.1 uv.2 = true) →
      ∃ ts, edgeTermsOf g l = .ok ts ∧
        ts.map (evalTerm m) = l.map (fun uv => m.costF uv.1 uv.2) := by
  intro l
  induction l with
  | nil => intro _; exact ⟨[], rfl, rfl⟩
  | cons uv rest ih =>
      intro hall
      obtain ⟨h1, h2, h3, h4, h5⟩ := hall uv (List.mem_cons_self _ _)
      obtain ⟨t, ht, hte⟩ := getEdgeCostTerm_eval hsat h1 h2 h3 h4 h5
      obtain ⟨ts, hts, htse⟩ := ih (fun x hx => hall x (List.mem_cons_of_mem _ hx))
      refine ⟨t :: ts, ?_, ?_⟩
      · unfold edgeTermsOf
        rw [ht, hts]
        rfl
      · simp [hte, htse]

theorem evalTerm_foldl_add (m : Model) :
    ∀ (ts : List Term) (acc : Term),
      evalTerm m (ts.foldl Term.add acc) =
        evalTerm m acc + (ts.map (evalTerm m)).sum := by
  intro ts
  induction ts with
  | nil => intro acc; simp
  | cons t ts ih =>
      intro acc
      rw [List.foldl_cons, ih]
      simp [evalTerm]
      ring

theorem getPathCost_eval {m : Model} {g : DiGraph} {nn : List V} {p : List V}
    (hsat : satisfiesAll m (baselineFormulas g nn) = true)
    (hn : ∀ x ∈ p, x ∈ nodesOf g ∧ x ∉ nn)
    (he : ∀ uv ∈ pathPairs p, hasEdgeB g uv.1 uv.2 = true) :
    ∃ t, getPathCost g p = .ok t ∧ evalTerm m t = resolvedSum m p := by
  have hall : ∀ uv ∈ pathPairs p, uv.1 ∈ nodesOf g ∧ uv.2 ∈ nodesOf g ∧
      uv.1 ∉ nn ∧ uv.2 ∉ nn ∧ hasEdgeB g uv.1 uv.2 = true := by
    intro uv huv
    obtain ⟨hm1, hm2⟩ := mem_of_mem_pathPairs huv
    exact ⟨(hn _ hm1).1, (hn _ hm2).1, (hn _ hm1).2, (hn _ hm2).2, he uv huv⟩
  obtain ⟨ts, hts, htse⟩ := edgeTermsOf_eval hsat (pathPairs p) hall
  refine ⟨ts.foldl Term.add (Term.lit 0), ?_, ?_⟩
  · unfold getPathCost
    rw [hts]
    rfl
  · rw [evalTerm_foldl_add, htse]
    simp [evalTerm, resolvedSum]

theorem edgeTermsOf_error {g : DiGraph} :
    ∀ (l : List (V × V)) (uv : V × V), uv ∈ l →
      hasEdgeB g uv.1 uv.2 = false →
      ∃ e, edgeTermsOf g l = .error e := by
  intro l
  induction l with
  | nil => intro uv h; simp at h
  | cons a rest ih =>
      intro uv hmem hne
      rcases List.mem_cons.mp hmem with h | h
      · subst h
        refine ⟨"KeyError: cost", ?_⟩
        unfold edgeTermsOf getEdgeCostTerm
        rw [if_neg (by simp [hne])]
        rfl
      · cases ha : getEdgeCostTerm g a.1 a.2 with
        | error e =>
            refine ⟨e, ?_⟩
            unfold edgeTermsOf
            rw [ha]
            rfl
        | ok t =>
            obtain ⟨e, hrest⟩ := ih uv h hne
            refine ⟨e, ?_⟩
            unfold edgeTermsOf
            rw [ha, hrest]
            rfl

theorem getPathCost_error {g : DiGraph} {p : List V} {uv : V × V}
    (hmem : uv ∈ pathPairs p) (hne : hasEdgeB g uv.1 uv.2 = false) :
    ∃ e, getPathCost g p = .error e := by
  obtain ⟨e, he⟩ := edgeTermsOf_error (pathPairs p) uv hmem hne
  refine ⟨e, ?_⟩
  unfold getPathCost
  rw [he]
  rfl

/-! ### Membership in the pushed constraint set -/

theorem altConstraints_mem {g : DiGraph} {p : List V} {pc : Term} :
    ∀ {sps : List (List V)} {fs : List Formula} {sp : List V},
      altConstraints g p pc sps = .ok fs → sp ∈ sps → sp ≠ p →
      ∃ spc, getPathCost g sp = .ok spc ∧ Formula.ltF pc spc ∈ fs := by
  intro sps
  induction sps with
  | nil => intro fs sp _ h; simp at h
  | cons a sps ih =>
      intro fs sp hok hmem hne
      unfold altConstraints at hok
      by_cases hap : a = p
      · rw [if_pos hap] at hok
        rcases List.mem_cons.mp hmem with h | h
        · exact absurd (h.trans hap) hne
        · exact ih hok h hne
      · rw [if_neg hap] at hok
        cases ha : getPathCost g a with
        | error e => rw [ha] at hok; cases hok
        | ok spca =>
            rw [ha] at hok
            cases hrest : altConstraints g p pc sps with
            | error e => rw [hrest] at hok; cases hok
            | ok rest =>
                rw [hrest] at hok
                have hfs : fs = Formula.ltF pc spca :: rest := by
                  cases hok; rfl
                subst hfs
                rcases List.mem_cons.mp hmem with h | h
                · subst h
                  exact ⟨spca, ha, List.mem_cons_self _ _⟩
                · obtain ⟨spc, hspc, hmem2⟩ := ih hrest h hne
                  exact ⟨spc, hspc, List.mem_cons_of_mem _ hmem2⟩

theorem pushRequirements_mem {g : DiGraph} :
    ∀ {reqs : List PathReq} {fs : List Formula} {req : PathReq},
      pushRequirements g reqs = .ok fs → req ∈ reqs →
      ∃ fsr, pushReq g req = .ok fsr ∧ ∀ φ ∈ fsr, φ ∈ fs := by
  intro reqs
  induction reqs with
  | nil => intro fs req _ h; simp at h
  | cons r rs ih =>
      intro fs req hok hmem
      unfold pushRequirements at hok
      cases hr : pushReq g r with
      | error e => rw [hr] at hok; cases hok
      | ok fsr =>
          rw [hr] at hok
          cases hrs : pushRequirements g rs with
          | error e => rw [hrs] at hok; cases hok
          | ok rest =>
              rw [hrs] at hok
              have hfs : fs = fsr ++ rest := by cases hok; rfl
              subst hfs
              rcases List.mem_cons.mp hmem with h | h
              · subst h
                exact ⟨fsr, hr, fun φ hφ => List.mem_append_left _ hφ⟩
              · obtain ⟨fsr2, hfsr2, hsub⟩ := ih hrs h
                exact ⟨fsr2, hfsr2, fun φ hφ => List.mem_append_right _ (hsub φ hφ)⟩

theorem pushRequirements_error {g : DiGraph} :
    ∀ {reqs : List PathReq} {req : PathReq},
      req ∈ reqs → (∃ e, pushReq g req = .error e) →
      ∃ e, pushRequirements g reqs = .error e := by
  intro reqs
  induction reqs with
  | nil => intro req h; simp at h
  | cons r rs ih =>
      intro req hmem herr
      unfold pushRequirements
      cases hr : pushReq g r with
      | error e => exact ⟨e, rfl⟩
      | ok fsr =>
          rcases List.mem_cons.mp hmem with h | h
          · subst h
            obtain ⟨e, he⟩ := herr
            rw [hr] at he
            cases he
          · obtain ⟨e, he⟩ := ih h herr
            rw [he]
            exact ⟨e, rfl⟩

theorem pushReq_error_of_missing_edge {g : DiGraph} {req : PathReq} {uv : V × V}
    (hmem : uv ∈ pathPairs req.path) (hne : hasEdgeB g uv.1 uv.2 = false) :
    ∃ e, pushReq g req = .error e := by
  obtain ⟨e, he⟩ := getPathCost_error hmem hne
  cases hp : req.path with
  | nil => exact ⟨"IndexError: list index out of range", by unfold pushReq; rw [hp]⟩
  | cons x xs =>
      rw [hp] at he
      refine ⟨e, ?_⟩
      unfold pushReq
      rw [hp]
      simp only
      rw [he]
      rfl

/-! ### Soundness and completeness of the simple-path enumeration -/

theorem mem_of_getLast?Eq {l : List V} {a : V} (h : l.getLast? = some a) : a ∈ l := by
  have := List.mem_getLast?_eq_getLast (show a ∈ l.getLast? by rw [h]; simp)
  obtain ⟨hne, rfl⟩ := this
  exact List.getLast_mem hne

theorem head?_eq_cons {l : List V} {a : V} (h : l.head? = some a) :
    ∃ t, l = a :: t := by
  cases l with
  | nil => cases h
  | cons x t => cases h; exact ⟨t, rfl⟩

theorem simplePathsAux_sound (g : DiGraph) (tgt : V) :
    ∀ (fuel : Nat) (pre : List V) (cur : V) (p : List V),
      cur ∉ pre →
      p ∈ simplePathsAux g tgt fuel pre cur →
      ∃ q, p = pre ++ q ∧ q.head? = some cur ∧ q.getLast? = some tgt ∧
        2 ≤ q.length ∧
        (∀ uv ∈ pathPairs q, hasEdgeB g uv.1 uv.2 = true) ∧
        q.dropLast.Nodup ∧
        (∀ x ∈ q.dropLast, x ∉ pre) ∧
        (∀ x ∈ q.dropLast.tail, x ≠ tgt) := by
  intro fuel
  induction fuel with
  | zero => intro pre cur p _ hp; simp [simplePathsAux] at hp
  | succ fuel ih =>
      intro pre cur p hcur hp
      unfold simplePathsAux at hp
      rw [List.mem_flatMap] at hp
      obtain ⟨child, hchild, hpin⟩ := hp
      by_cases hct : child == tgt
      · rw [if_pos hct] at hpin
        have hceq : child = tgt := eq_of_beq hct
        subst hceq
        rcases List.mem_singleton.mp hpin with rfl
        refine ⟨[cur, child], rfl, rfl, by simp, by simp, ?_, by simp, ?_, by simp⟩
        · intro uv huv
          simp only [pathPairs, List.mem_singleton] at huv
          subst huv
          exact (mem_succsOf_iff g cur child).mp hchild
        · intro x hx
          simp only [List.dropLast] at hx
          rcases List.mem_singleton.mp hx with rfl
          exact hcur
      · rw [if_neg (by simp [hct])] at hpin
        by_cases hbad : pre.contains child || child == cur
        · rw [if_pos hbad] at hpin
          simp at hpin
        · rw [if_neg hbad] at hpin
          have hnotin : child ∉ pre ++ [cur] := by
            rw [Bool.or_eq_true] at hbad
            push_neg at hbad
            intro hmem
            rcases List.mem_append.mp hmem with h | h
            · exact hbad.1 (by simpa using h)
            · rcases List.mem_singleton.mp h with rfl
              exact hbad.2 (by simp)
          obtain ⟨q2, hpq, hq2h, hq2l, hq2len, hq2e, hq2nd, hq2pre, hq2tl⟩ :=
            ih (pre ++ [cur]) child p hnotin hpin
          obtain ⟨rest, hq2⟩ := head?_eq_cons hq2h
          subst hq2
          have hrest : rest ≠ [] := by
            intro hc
            subst hc
            simp at hq2len
          refine ⟨cur :: child :: rest, ?_, rfl, ?_, by simp, ?_, ?_, ?_, ?_⟩
          · rw [hpq]; simp
          · rw [List.getLast?_cons_cons]; exact hq2l
          · intro uv huv
            rw [pathPairs_cons_cons, List.mem_cons] at huv
            rcases huv with rfl | h
            · exact (mem_succsOf_iff g cur child).mp hchild
            · exact hq2e uv h
          · rw [List.dropLast_cons_of_ne_nil (by simp)]
            rw [List.nodup_cons]
            constructor
            · intro hmem
              exact hq2pre cur hmem (by simp)
            · exact hq2nd
          · intro x hx
            rw [List.dropLast_cons_of_ne_nil (by simp)] at hx
            rcases List.mem_cons.mp hx with rfl | h
            · exact hcur
            · intro hmem
              exact hq2pre x h (List.mem_append_left _ hmem)
          · intro x hx
            rw [List.dropLast_cons_of_ne_nil (by simp)] at hx
            simp only [List.tail_cons] at hx
            rw [List.dropLast_cons_of_ne_nil hrest] at hx
            rcases List.mem_cons.mp hx with rfl | h
            · intro hc
              rw [hc] at hct
              simp at hct
            · exact hq2tl x (by rw [List.dropLast_cons_of_ne_nil hrest, List.tail_cons]; exact h)

theorem simplePathsAux_complete (g : DiGraph) (tgt : V) :
    ∀ (fuel : Nat) (q : List V) (pre : List V) (cur : V),
      q.head? = some cur → q.getLast? = some tgt →
      (∀ uv ∈ pathPairs q, hasEdgeB g uv.1 uv.2 = true) →
      q.Nodup → 2 ≤ q.length →
      (∀ x ∈ q, x ∉ pre) →
      cur ≠ tgt →
      q.length ≤ fuel + 1 →
      (pre ++ q) ∈ simplePathsAux g tgt fuel pre cur := by
  intro fuel
  induction fuel with
  | zero =>
      intro q pre cur _ _ _ _ hlen _ _ hfuel
      omega
  | succ fuel ih =>
      intro q pre cur hh hl he hnd hlen hpre hct hfuel
      obtain ⟨q2, rfl⟩ := head?_eq_cons hh
      have hq2ne : q2 ≠ [] := by
        intro hc
        subst hc
        simp at hlen
      obtain ⟨c, rest, rfl⟩ : ∃ c rest, q2 = c :: rest := by
        cases q2 with
        | nil => exact absurd rfl hq2ne
        | cons c rest => exact ⟨c, rest, rfl⟩
      have hedge : hasEdgeB g cur c = true :=
        he (cur, c) (by rw [pathPairs_cons_cons]; exact List.mem_cons_self _ _)
      have hcmem : c ∈ succsOf g cur := (mem_succsOf_iff g cur c).mpr hedge
      unfold simplePathsAux
      rw [List.mem_flatMap]
      by_cases hceq : c = tgt
      · subst hceq
        have hrest : rest = [] := by
          cases rest with
          | nil => rfl
          | cons r rs =>
              exfalso
              rw [List.getLast?_cons_cons, List.getLast?_cons_cons] at hl
              have : c ∈ r :: rs := mem_of_getLast?Eq hl
              have hnd2 := List.nodup_cons.mp hnd
              have hnd3 := List.nodup_cons.mp hnd2.2
              exact hnd3.1 this
        subst hrest
        exact ⟨c, hcmem, by rw [if_pos (by simp)]; simp⟩
      · have hrestne : rest ≠ [] := by
          intro hc
          subst hc
          rw [List.getLast?_cons_cons] at hl
          simp at hl
          exact hceq hl
        refine ⟨c, hcmem, ?_⟩
        rw [if_neg (by simp [hceq])]
        have hcpre : ¬(pre.contains c || c == cur) = true := by
          rw [Bool.or_eq_true]
          push_neg
          constructor
          · intro hc
            exact hpre c (by simp) (by simpa using hc)
          · have : cur ∉ c :: rest := (List.nodup_cons.mp hnd).1
            intro hc
            exact this (by rw [eq_of_beq hc]; simp)
        rw [if_neg hcpre]
        have hgoal := ih (c :: rest) (pre ++ [cur]) c rfl ?_ ?_ ?_ ?_ ?_ hceq ?_
        · have heq : (pre ++ [cur]) ++ (c :: rest) = pre ++ (cur :: c :: rest) := by simp
          rw [heq] at hgoal
          exact hgoal
        · rw [List.getLast?_cons_cons] at hl
          exact hl
        · intro uv huv
          exact he uv (pathPairs_subset_cons cur _ huv)
        · exact (List.nodup_cons.mp hnd).2
        · have := List.length_pos.mpr hrestne
          simp
          omega
        · intro x hx
          intro hmem
          rcases List.mem_append.mp hmem with h | h
          · exact hpre x (List.mem_cons_of_mem _ hx) h
          · rcases List.mem_singleton.mp h with rfl
            exact (List.nodup_cons.mp hnd).1 hx
        · simp at hfuel ⊢
          omega

theorem allSimplePaths_sound {g : DiGraph} {src tgt : V} {p : List V}
    (h : p ∈ allSimplePaths g src tgt) :
    p.head? = some src ∧ p.getLast? = some tgt ∧ 2 ≤ p.length ∧
      (∀ uv ∈ pathPairs p, hasEdgeB g uv.1 uv.2 = true) ∧
      (src ≠ tgt → p.Nodup) ∧
      hasNodeB g src = true ∧ hasNodeB g tgt = true := by
  unfold allSimplePaths at h
  by_cases hguard : hasNodeB g src && hasNodeB g tgt
  · rw [if_pos hguard] at h
    obtain ⟨q, hpq, hqh, hql, hqlen, hqe, hqnd, _, hqtl⟩ :=
      simplePathsAux_sound g tgt ((nodesOf g).length - 1) [] src p (by simp) h
    rw [List.nil_append] at hpq
    subst hpq
    have hand := Bool.and_eq_true _ _ |>.mp hguard
    refine ⟨hqh, hql, hqlen, hqe, ?_, hand.1, hand.2⟩
    intro hne
    have hpne : p ≠ [] := by
      intro hc
      subst hc
      simp at hqlen
    have hsplit : p.dropLast ++ [tgt] = p := by
      have := List.dropLast_append_getLast hpne
      have hlast : p.getLast hpne = tgt := by
        have := List.getLast?_eq_getLast_of_ne_nil hpne
        rw [this] at hql
        exact Option.some_injective _ hql
      rw [hlast] at this
      exact this
    have hdlne : p.dropLast ≠ [] := by
      intro hc
      rw [hc] at hsplit
      simp at hsplit
      subst hsplit
      simp at hqlen
    have hdlhead : p.dropLast.head? = some src := by
      obtain ⟨t, ht⟩ := head?_eq_cons hqh
      cases hd : p.dropLast with
      | nil => exact absurd hd hdlne
      | cons a t2 =>
          have : p.head? = some a := by
            conv_lhs => rw [← hsplit]
            rw [hd]
            simp
          rw [hqh] at this
          cases this
          rfl
    have htgtnot : tgt ∉ p.dropLast := by
      obtain ⟨t2, ht2⟩ := head?_eq_cons hdlhead
      rw [ht2]
      intro hmem
      rcases List.mem_cons.mp hmem with h1 | h1
      · exact hne h1.symm
      · exact hqtl tgt (by rw [ht2]; simpa using h1) rfl
    rw [← hsplit]
    simp [List.nodup_append]
    exact ⟨hqnd, fun hc => htgtnot hc⟩
  · rw [if_neg hguard] at h
    simp at h

theorem allSimplePaths_complete {g : DiGraph} {src tgt : V} {q : List V}
    (hh : q.head? = some src) (hl : q.getLast? = some tgt)
    (hp : ∀ uv ∈ pathPairs q, hasEdgeB g uv.1 uv.2 = true)
    (hnd : q.Nodup) (hlen : 2 ≤ q.length)
    (hsub : ∀ x ∈ q, x ∈ nodesOf g) :
    q ∈ allSimplePaths g src tgt := by
  obtain ⟨q2, rfl⟩ := head?_eq_cons hh
  have hq2ne : q2 ≠ [] := by
    intro hc
    subst hc
    simp at hlen
  have htgtq2 : tgt ∈ q2 := by
    cases q2 with
    | nil => exact absurd rfl hq2ne
    | cons c rest =>
        rw [List.getLast?_cons_cons] at hl
        exact mem_of_getLast?Eq hl
  have hne : src ≠ tgt := by
    intro hc
    subst hc
    exact (List.nodup_cons.mp hnd).1 htgtq2
  have hsrcn : hasNodeB g src = true := by
    unfold hasNodeB
    simpa using hsub src (by simp)
  have htgtn : hasNodeB g tgt = true := by
    unfold hasNodeB
    simpa using hsub tgt (List.mem_cons_of_mem _ htgtq2)
  have hcard : (src :: q2).length ≤ (nodesOf g).length := by
    have h1 : (src :: q2).toFinset.card = (src :: q2).length :=
      List.toFinset_card_of_nodup hnd
    have h2 : (src :: q2).toFinset ⊆ (nodesOf g).toFinset := by
      intro x hx
      rw [List.mem_toFinset] at hx ⊢
      exact hsub x hx
    have h3 := Finset.card_le_card h2
    have h4 := (nodesOf g).toFinset_card_le
    omega
  have hnodesne : 1 ≤ (nodesOf g).length := by
    have := hsub src (by simp)
    have := List.length_pos.mpr (List.ne_nil_of_mem this)
    omega
  unfold allSimplePaths
  rw [if_pos (by rw [hsrcn, htgtn]; rfl)]
  have := simplePathsAux_complete g tgt ((nodesOf g).length - 1) (src :: q2) [] src
    hh hl hp hnd hlen (by simp) hne (by omega)
  simpa using this

theorem pushReq_ok_inv {g : DiGraph} {x : V} {xs : List V} {fs : List Formula}
    (h : pushReq g ⟨x :: xs⟩ = .ok fs) :
    ∃ pc, getPathCost g (x :: xs) = .ok pc ∧
      (hasNodeB g x &&
        hasNodeB g ((x :: xs).getLast (List.cons_ne_nil x xs))) = true ∧
      altConstraints g (x :: xs) pc
        (allSimplePaths g x ((x :: xs).getLast (List.cons_ne_nil x xs))) =
        .ok fs := by
  have h0 : (do
      let pc ← getPathCost g (x :: xs)
      if (hasNodeB g x &&
          hasNodeB g ((x :: xs).getLast (List.cons_ne_nil x xs))) = true then
        altConstraints g (x :: xs) pc
          (allSimplePaths g x ((x :: xs).getLast (List.cons_ne_nil x xs)))
      else .error "NetworkXError: node not in graph") = .ok fs := h
  cases hg : getPathCost g (x :: xs) with
  | error e => rw [hg] at h0; cases h0
  | ok pc =>
      rw [hg] at h0
      have h2 : (if (hasNodeB g x &&
          hasNodeB g ((x :: xs).getLast (List.cons_ne_nil x xs))) = true then
          altConstraints g (x :: xs) pc
            (allSimplePaths g x ((x :: xs).getLast (List.cons_ne_nil x xs)))
        else .error "NetworkXError: node not in graph") = .ok fs := h0
      by_cases hguard : (hasNodeB g x &&
          hasNodeB g ((x :: xs).getLast (List.cons_ne_nil x xs))) = true
      · rw [if_pos hguard] at h2
        exact ⟨pc, rfl, hguard, h2⟩
      · rw [if_neg hguard] at h2
        cases h2

/-- C1: for a topology and requirement set whose constraint conjunction
(baseline constraints of `_read_input_graph` plus the constraints of
`push_requirements`) is satisfied by a model, every registered path
requirement over router nodes has its sum of model-resolved edge costs
strictly below the sum of model-resolved edge costs of every other
simple path of the topology between the same two endpoints. -/
theorem c1_required_path_strictly_cheapest
    (g : DiGraph) (nn : List V) (reqs : List PathReq) (pfs : List Formula)
    (m : Model) (req : PathReq) (sp : List V)
    (hsatB : satisfiesAll m (baselineFormulas g nn) = true)
    (hpush : pushRequirements g reqs = Except.ok pfs)
    (hsatP : satisfiesAll m pfs = true)
    (hreq : req ∈ reqs)
    (hnodes : ∀ x ∈ req.path, x ∈ nodesOf g ∧ x ∉ nn)
    (hpairs : ∀ uv ∈ pathPairs req.path, hasEdgeB g uv.1 uv.2 = true)
    (hlen : 2 ≤ req.path.length)
    (hsp : IsSimplePath g sp)
    (hsph : sp.head? = req.path.head?)
    (hspl : sp.getLast? = req.path.getLast?)
    (hspnodes : ∀ x ∈ sp, x ∈ nodesOf g ∧ x ∉ nn)
    (hne : sp ≠ req.path) :
    resolvedSum m req.path < resolvedSum m sp := by
  obtain ⟨hsplen, hspnd, hspe⟩ := hsp
  obtain ⟨x, xs, hxp⟩ : ∃ x xs, req.path = x :: xs := by
    cases hq : req.path with
    | nil => rw [hq] at hlen; simp at hlen
    | cons a t => exact ⟨a, t, rfl⟩
  obtain ⟨pc, hpc, hpce⟩ := getPathCost_eval hsatB hnodes hpairs
  obtain ⟨spc, hspc, hspce⟩ := getPathCost_eval hsatB hspnodes hspe
  obtain ⟨fsr, hfsr, hsub⟩ := pushRequirements_mem hpush hreq
  have hreqeta : req = ⟨x :: xs⟩ := by cases req; simpa using hxp
  rw [hreqeta] at hfsr
  obtain ⟨pc2, hpc2, _, halt⟩ := pushReq_ok_inv hfsr
  rw [hxp] at hpc
  have hpceq : pc2 = pc := by rw [hpc] at hpc2; cases hpc2; rfl
  subst hpceq
  have hdstlast : (x :: xs).getLast? =
      some ((x :: xs).getLast (List.cons_ne_nil x xs)) :=
    List.getLast?_eq_getLast_of_ne_nil _
  have hsphx : sp.head? = some x := by rw [hsph, hxp]; rfl
  have hspldst : sp.getLast? =
      some ((x :: xs).getLast (List.cons_ne_nil x xs)) := by
    rw [hspl, hxp, hdstlast]
  have hspmem : sp ∈ allSimplePaths g x ((x :: xs).getLast (List.cons_ne_nil x xs)) :=
    allSimplePaths_complete hsphx hspldst hspe hspnd hsplen
      (fun y hy => (hspnodes y hy).1)
  have hnesp : sp ≠ x :: xs := by rw [← hxp]; exact hne
  obtain ⟨spc2, hspc2, hmemlt⟩ := altConstraints_mem halt hspmem hnesp
  have hspceq : spc2 = spc := by rw [hspc] at hspc2; cases hspc2; rfl
  subst hspceq
  have hsatlt := satisfiesAll_mem hsatP (hsub _ hmemlt)
  simp only [satisfies, decide_eq_true_eq] at hsatlt
  rw [← hpce, ← hspce]
  exact hsatlt

/-- Witness topology: a router triangle with edges A→B, B→C, A→C and no
fixed costs. -/
def gW : DiGraph :=
  ⟨[("A", some NODE_TYPE), ("B", some NODE_TYPE), ("C", some NODE_TYPE)],
   [("A", "B", none), ("B", "C", none), ("A", "C", none)]⟩

/-- Witness model: the three physical edges exist, costs 1, 1 and 5. -/
def mW : Model :=
  ⟨fun u v => (u == "A" && v == "B") || (u == "B" && v == "C") ||
      (u == "A" && v == "C"),
   fun u v =>
     if u == "A" && v == "B" then 1
     else if u == "B" && v == "C" then 1
     else if u == "A" && v == "C" then 5 else 0⟩

/-- Witness requirement: the path A, B, C. -/
def reqW : PathReq := ⟨["A", "B", "C"]⟩

/-- The constraint list `push_requirements` produces on the witness
topology for the witness requirement. -/
def pfsW : List Formula :=
  [Formula.ltF
    (Term.add (Term.add (Term.lit 0) (Term.edgeCost "A" "B"))
      (Term.edgeCost "B" "C"))
    (Term.add (Term.lit 0) (Term.edgeCost "A" "C"))]

/-- Witness for C1 at the concrete triangle scenario: the required path
A,B,C resolves to cost 2, strictly below the alternative A,C at cost 5. -/
theorem c1_witness :
    resolvedSum mW ["A", "B", "C"] < resolvedSum mW ["A", "C"] :=
  c1_required_path_strictly_cheapest gW [] [reqW] pfsW mW reqW ["A", "C"]
    (by decide) (by rfl) (by decide) (by decide) (by decide) (by decide)
    (by decide) ⟨by decide, by decide, by decide⟩ (by decide) (by decide)
    (by decide) (by decide)

/-! ### Loading and cost annotation preserve the adjacency keys -/

theorem loadGraphAux_edges :
    ∀ (l : List (V × Option String)) (acc g1 : DiGraph),
      loadGraphAux l acc = Except.ok g1 → g1.edgeList = acc.edgeList := by
  intro l
  induction l with
  | nil => intro acc g1 h; cases h; rfl
  | cons nd rest ih =>
      intro acc g1 h
      obtain ⟨n, attr⟩ := nd
      cases attr with
      | none => cases h
      | some t =>
          unfold loadGraphAux at h
          by_cases ht : t ≠ NODE_TYPE
          · rw [if_pos ht] at h
            have := ih (delNode acc n) g1 h
            rw [this]
            rfl
          · rw [if_neg ht] at h
            exact ih acc g1 h

theorem loadGraph_edges {g0 g1 : DiGraph} (h : loadGraph g0 = Except.ok g1) :
    g1.edgeList = g0.edgeList :=
  loadGraphAux_edges g0.nodeList g0 g1 h

theorem hasEdgeB_setEdgeCostAttr (g : DiGraph) (a b : V) (c : Int) (u v : V) :
    hasEdgeB (setEdgeCostAttr g a b c) u v = hasEdgeB g u v := by
  unfold hasEdgeB setEdgeCostAttr
  simp only [List.any_map]
  congr 1
  funext e
  simp only [Function.comp]
  by_cases hk : (e.1 == a && e.2.1 == b) = true
  · rw [if_pos hk]
  · rw [if_neg hk]

theorem annotateConfigs_hasEdgeB :
    ∀ (cfgs : List SetOSPFEdgeCost) (g0 g : DiGraph),
      annotateConfigs cfgs g0 = Except.ok g →
      ∀ u v, hasEdgeB g u v = hasEdgeB g0 u v := by
  intro cfgs
  induction cfgs with
  | nil => intro g0 g h u v; cases h; rfl
  | cons cfg rest ih =>
      intro g0 g h u v
      unfold annotateConfigs at h
      by_cases hc : hasEdgeB g0 cfg.src cfg.dst = true
      · rw [if_pos hc] at h
        rw [ih _ _ h u v, hasEdgeB_setEdgeCostAttr]
      · rw [if_neg hc] at h
        cases h

/-! ### Inversion of the output configuration list -/

theorem mem_getOutputConfigs_inv {m : Model} {registry : List V}
    {e : SetOSPFEdgeCost} (h : e ∈ getOutputConfigs m registry) :
    e.src ∈ registry ∧ e.dst ∈ registry ∧ m.edgeB e.src e.dst = true ∧
      e.cost = m.costF e.src e.dst := by
  unfold getOutputConfigs at h
  rw [List.mem_flatMap] at h
  obtain ⟨src, hsrc, hin⟩ := h
  rw [List.mem_filterMap] at hin
  obtain ⟨dst, hdst, hfd⟩ := hin
  by_cases hb : m.edgeB src dst = true
  · rw [if_pos hb] at hfd
    cases hfd
    exact ⟨hsrc, hdst, hb, rfl⟩
  · rw [if_neg hb] at hfd
    cases hfd

/-- C5: for an ordered pair of router nodes with no edge between them in
the input topology, no satisfying model of the baseline constraints can
make `get_output_configs` emit a triple for that pair: the baseline
encoding asserts the edge predicate false there, so the solver cannot
invent router-to-router edges. -/
theorem c5_no_invented_router_edges
    (g0 g1 g : DiGraph) (cfgs : List SetOSPFEdgeCost)
    (nn registry : List V) (m : Model) (u v : V) (c : Int)
    (hload : loadGraph g0 = Except.ok g1)
    (hannot : annotateConfigs cfgs g1 = Except.ok g)
    (hsat : satisfiesAll m (baselineFormulas g nn) = true)
    (hu : u ∈ nodesOf g) (hv : v ∈ nodesOf g) (hun : u ∉ nn) (hvn : v ∉ nn)
    (hne : hasEdgeB g0 u v = false) :
    SetOSPFEdgeCost.mk u v c ∉ getOutputConfigs m registry := by
  intro hmem
  have h1 : hasEdgeB g1 u v = hasEdgeB g0 u v := by
    unfold hasEdgeB
    rw [loadGraph_edges hload]
  have h2 : hasEdgeB g u v = false := by
    rw [annotateConfigs_hasEdgeB cfgs g1 g hannot, h1, hne]
  have h3 : m.edgeB u v = false :=
    baseline_edge_false hsat hu hv hun hvn h2
  have h4 := mem_getOutputConfigs_inv hmem
  rw [h3] at h4
  exact absurd h4.2.2.1 (by simp)

/-- Witness for C5: in the router triangle there is no edge B→A, and no
output triple for B→A exists under the satisfying witness model. -/
theorem c5_witness :
    SetOSPFEdgeCost.mk "B" "A" 0 ∉ getOutputConfigs mW ["A", "B", "C"] :=
  c5_no_invented_router_edges gW gW gW [] [] ["A", "B", "C"] mW "B" "A" 0
    (by rfl) (by rfl) (by decide) (by decide) (by decide) (by decide)
    (by decide) (by decide)

/-- The failing input of C6: a router A, a peer P (vertex type not
`NODE_TYPE`) and a physical link A→P. -/
def gC6 : DiGraph :=
  ⟨[("A", some NODE_TYPE), ("P", some "peer")], [("A", "P", none)]⟩

/-- The graph `_load_graph` actually produces on `gC6`. -/
def gC6loaded : DiGraph := ⟨[("A", some NODE_TYPE)], [("A", "P", none)]⟩

/-- C6, evaluated at the failing input: loading removes the peer from the
node listing, yet the edge A→P survives in the adjacency of the filtered
graph, so an edge of the filtered Topology Graph touches a node absent
from the router set (`del g.node[node]` removes only the node entry in
networkx 1.x; `g.remove_node` would also drop incident edges). -/
theorem c6_load_keeps_nonrouter_edges :
    loadGraph gC6 = Except.ok gC6loaded ∧
    nodesOf gC6loaded = ["A"] ∧
    hasEdgeB gC6loaded "A" "P" = true ∧
    "P" ∉ nodesOf gC6loaded :=
  ⟨rfl, rfl, rfl, by decide⟩

/-- C7: a node without a vertex-type tag makes `_load_graph` (invoked at
construction) fail loudly with a `KeyError` instead of skipping the
node. -/
theorem c7_missing_vertex_type_fails
    (g : DiGraph) (n : V)
    (h : (n, (none : Option String)) ∈ g.nodeList) :
    ∃ e, loadGraph g = Except.error e := by
  unfold loadGraph
  have haux : ∀ (l : List (V × Option String)) (acc : DiGraph),
      (n, (none : Option String)) ∈ l →
      ∃ e, loadGraphAux l acc = Except.error e := by
    intro l
    induction l with
    | nil => intro acc hmem; simp at hmem
    | cons nd rest ih =>
        intro acc hmem
        obtain ⟨nx, attr⟩ := nd
        cases attr with
        | none => exact ⟨"KeyError: VERTEX_TYPE", rfl⟩
        | some t =>
            rcases List.mem_cons.mp hmem with h1 | h1
            · cases h1
            · unfold loadGraphAux
              exact ih _ h1
  exact haux g.nodeList g h

/-- The failing input for the C7 witness: router A plus an untyped node P. -/
def gC7 : DiGraph := ⟨[("A", some NODE_TYPE), ("P", none)], []⟩

/-- Witness for C7: loading `gC7` errors. -/
theorem c7_witness : ∃ e, loadGraph gC7 = Except.error e :=
  c7_missing_vertex_type_fails gC7 "P" (by decide)

/-- C3 counterexample: `add_path_req` does not fail on a requirement
whose path has fewer than two nodes; the empty-path requirement is
appended to the requirement list exactly like any other. -/
theorem c3_counterexample_empty_path_accepted :
    addPathReq [] ⟨[]⟩ = [⟨[]⟩] := rfl

/-- C3 amended: `add_path_req` only checks that its argument is a
`PathReq` and appends it; a path with fewer than two nodes is not
rejected at registration, and for an empty path the failure surfaces
only later, as an `IndexError` inside `push_requirements`. -/
theorem c3_amended_no_length_check_at_registration
    (g : DiGraph) (reqs : List PathReq) (req : PathReq)
    (hempty : req.path = []) :
    addPathReq reqs req = reqs ++ [req] ∧
    ∃ e, pushRequirements g (addPathReq reqs req) = Except.error e := by
  refine ⟨rfl, ?_⟩
  have hreqeta : req = ⟨[]⟩ := by cases req; simpa using hempty
  have hmem : req ∈ addPathReq reqs req := by
    unfold addPathReq
    exact List.mem_append_right _ (by simp)
  have herr : ∃ e, pushReq g req = Except.error e := by
    refine ⟨"IndexError: list index out of range", ?_⟩
    rw [hreqeta]
    rfl
  exact pushRequirements_error hmem herr

/-- Witness for the amended C3 at the empty-path requirement on the
witness triangle. -/
theorem c3_witness :
    addPathReq [] (⟨[]⟩ : PathReq) = [⟨[]⟩] ∧
    ∃ e, pushRequirements gW (addPathReq [] ⟨[]⟩) = Except.error e :=
  c3_amended_no_length_check_at_registration gW [] ⟨[]⟩ rfl

/-- The input graph of the C4 counterexample: routers A and B joined
only by the edge A→B. -/
def gC4 : DiGraph :=
  ⟨[("A", some NODE_TYPE), ("B", some NODE_TYPE)], [("A", "B", none)]⟩

/-- C4 counterexample: the required path B,A uses the pair (B, A), which
has no edge, and `push_requirements` raises (`KeyError` from the
`_get_edge_cost` subscript) instead of completing with a symbolic
reference to the disallowed pair. -/
theorem c4_counterexample_push_raises :
    pushRequirements gC4 [⟨["B", "A"]⟩] = Except.error "KeyError: cost" := rfl

/-- C4 amended: whenever a registered requirement contains a consecutive
pair with no edge in the graph adjacency, `push_requirements` raises a
lookup error; infeasibility of such a pair is never encoded as a
symbolic constraint. -/
theorem c4_amended_push_raises_on_missing_edge
    (g : DiGraph) (reqs : List PathReq) (req : PathReq) (uv : V × V)
    (hreq : req ∈ reqs) (hmem : uv ∈ pathPairs req.path)
    (hne : hasEdgeB g uv.1 uv.2 = false) :
    ∃ e, pushRequirements g reqs = Except.error e :=
  pushRequirements_error hreq (pushReq_error_of_missing_edge hmem hne)

/-- Witness for the amended C4 at the concrete two-router input. -/
theorem c4_witness :
    ∃ e, pushRequirements gC4 [⟨["B", "A"]⟩] = Except.error e :=
  c4_amended_push_raises_on_missing_edge gC4 [⟨["B", "A"]⟩] ⟨["B", "A"]⟩
    ("B", "A") (by simp) (by decide) (by decide)

/-- The C10 scenario graph: a single router A; the destination network N
is registered in the vertex registry but is not a node of the filtered
topology graph. -/
def gC10 : DiGraph := ⟨[("A", some NODE_TYPE)], []⟩

/-- The C10 model: the edge predicate is true on the pair (A, N), which
no baseline constraint mentions. -/
def mC10 : Model := ⟨fun u v => u == "A" && v == "N", fun _ _ => 0⟩

/-- C10: the baseline encoding constrains only pairs of topology nodes
that are not destination-network names — here the single assertion is
`Not(edge(A, A))` and no constraint mentions N — while the output views
iterate every registered vertex; hence a model satisfying every baseline
constraint can set `edge(A, N)` true, and both `get_output_configs` and
`get_output_network_graph` then emit an edge touching the
destination-network vertex N. -/
theorem c10_network_vertex_edges_unconstrained :
    baselineFormulas gC10 ["N"] = [Formula.notEdgeF "A" "A"] ∧
    satisfiesAll mC10 (baselineFormulas gC10 ["N"]) = true ∧
    SetOSPFEdgeCost.mk "A" "N" 0 ∈ getOutputConfigs mC10 ["A", "N"] ∧
    hasEdgeB (getOutputNetworkGraph mC10 ["A", "N"] gC10) "A" "N" = true :=
  ⟨rfl, by decide, by decide, by decide⟩

/-! ### Shape of the output network graph -/

theorem nodesOf_outputNetworkGraph (m : Model) (registry : List V) (g : DiGraph) :
    nodesOf (getOutputNetworkGraph m registry g) = registry := by
  unfold nodesOf getOutputNetworkGraph
  rw [List.map_map]
  have hid : (Prod.fst ∘ fun v : V => (v, lookupAttr g v)) = id := by
    funext v
    rfl
  rw [hid, List.map_id]

theorem mem_outputNetworkGraph_edges_inv {m : Model} {registry : List V}
    {g : DiGraph} {e : V × V × Option Int}
    (h : e ∈ (getOutputNetworkGraph m registry g).edgeList) :
    e.1 ∈ registry ∧ e.2.1 ∈ registry ∧ m.edgeB e.1 e.2.1 = true ∧
      e.2.2 = some (m.costF e.1 e.2.1) := by
  unfold getOutputNetworkGraph at h
  simp only at h
  rw [List.mem_flatMap] at h
  obtain ⟨src, hsrc, hin⟩ := h
  rw [List.mem_filterMap] at hin
  obtain ⟨dst, hdst, hfd⟩ := hin
  by_cases hb : m.edgeB src dst = true
  · rw [if_pos hb] at hfd
    cases hfd
    exact ⟨hsrc, hdst, hb, rfl⟩
  · rw [if_neg hb] at hfd
    cases hfd

theorem mem_outputNetworkGraph_edges {m : Model} {registry : List V}
    {g : DiGraph} {u v : V} (hu : u ∈ registry) (hv : v ∈ registry)
    (hb : m.edgeB u v = true) :
    (u, v, some (m.costF u v)) ∈ (getOutputNetworkGraph m registry g).edgeList := by
  unfold getOutputNetworkGraph
  simp only
  rw [List.mem_flatMap]
  refine ⟨u, hu, ?_⟩
  rw [List.mem_filterMap]
  refine ⟨v, hv, ?_⟩
  rw [if_pos hb]

theorem outputNetworkGraph_wf (m : Model) (registry : List V) (g : DiGraph) :
    ∀ e ∈ (getOutputNetworkGraph m registry g).edgeList,
      e.1 ∈ nodesOf (getOutputNetworkGraph m registry g) ∧
      e.2.1 ∈ nodesOf (getOutputNetworkGraph m registry g) := by
  intro e he
  have := mem_outputNetworkGraph_edges_inv he
  rw [nodesOf_outputNetworkGraph]
  exact ⟨this.1, this.2.1⟩

theorem outputNetworkGraph_hasEdgeB_mem {m : Model} {registry : List V}
    {g : DiGraph} {u v : V}
    (h : hasEdgeB (getOutputNetworkGraph m registry g) u v = true) :
    (u, v, some (m.costF u v)) ∈ (getOutputNetworkGraph m registry g).edgeList := by
  unfold hasEdgeB at h
  rw [List.any_eq_true] at h
  obtain ⟨e, hmem, hkey⟩ := h
  have h1 : e.1 = u := eq_of_beq ((Bool.and_eq_true _ _).mp hkey).1
  have h2 : e.2.1 = v := eq_of_beq ((Bool.and_eq_true _ _).mp hkey).2
  have hshape := mem_outputNetworkGraph_edges_inv hmem
  have he : e = (u, v, some (m.costF u v)) := by
    obtain ⟨a, b, c⟩ := e
    simp only at h1 h2
    subst h1
    subst h2
    simp only at hshape
    rw [hshape.2.2.2]
  rw [← he]
  exact hmem

/-! ### Paths inside a well-formed graph -/

theorem endpoints_mem_of_hasEdgeB {h : DiGraph}
    (hwf : ∀ e ∈ h.edgeList, e.1 ∈ nodesOf h ∧ e.2.1 ∈ nodesOf h)
    {u v : V} (he : hasEdgeB h u v = true) :
    u ∈ nodesOf h ∧ v ∈ nodesOf h := by
  unfold hasEdgeB at he
  rw [List.any_eq_true] at he
  obtain ⟨e, hmem, hkey⟩ := he
  have h1 : e.1 = u := eq_of_beq ((Bool.and_eq_true _ _).mp hkey).1
  have h2 : e.2.1 = v := eq_of_beq ((Bool.and_eq_true _ _).mp hkey).2
  have := hwf e hmem
  rw [h1, h2] at this
  exact this

theorem mem_endpoint_of_mem {q : List V} {x : V}
    (hx : x ∈ q) (hlen : 2 ≤ q.length) :
    ∃ uv ∈ pathPairs q, x = uv.1 ∨ x = uv.2 := by
  induction q with
  | nil => simp at hx
  | cons a l ih =>
      cases l with
      | nil => simp at hlen
      | cons b rest =>
          rcases List.mem_cons.mp hx with rfl | hxl
          · exact ⟨(x, b), by rw [pathPairs_cons_cons]; simp, Or.inl rfl⟩
          · cases rest with
            | nil =>
                rcases List.mem_cons.mp hxl with rfl | hc
                · exact ⟨(a, x), by rw [pathPairs_cons_cons]; simp, Or.inr rfl⟩
                · simp at hc
            | cons r rs =>
                obtain ⟨uv, huv, hor⟩ := ih hxl (by simp)
                exact ⟨uv, pathPairs_subset_cons a _ huv, hor⟩

theorem hasPathB_of_mem_simplePath {h : DiGraph}
    (hwf : ∀ e ∈ h.edgeList, e.1 ∈ nodesOf h ∧ e.2.1 ∈ nodesOf h)
    {u d : V} {p : List V} (hp : p ∈ allSimplePaths h u d) (hud : u ≠ d)
    {x : V} (hx : x ∈ p) : hasPathB h x d = true := by
  obtain ⟨hh, hl, hlen, he, hnd, hsrcn, htgtn⟩ := allSimplePaths_sound hp
  have hpnd : p.Nodup := hnd hud
  obtain ⟨l1, l2, hps⟩ := List.append_of_mem hx
  rw [hps] at hl
  rw [List.getLast?_append_cons] at hl
  by_cases hxd : x = d
  · unfold hasPathB
    subst hxd
    rw [htgtn]
    simp
  · cases hl2 : l2 with
    | nil =>
        subst hl2
        simp at hl
        exact absurd hl hxd
    | cons r rs =>
        have hsub : (x :: l2).Sublist p := by
          rw [hps]
          exact List.sublist_append_right l1 (x :: l2)
        have hsnd : (x :: l2).Nodup := List.Nodup.sublist hsub hpnd
        have hse : ∀ uv ∈ pathPairs (x :: l2), hasEdgeB h uv.1 uv.2 = true := by
          intro uv huv
          apply he
          rw [hps]
          exact pathPairs_append_cons l1 x l2 huv
        have hslen : 2 ≤ (x :: l2).length := by rw [hl2]; simp
        have hsnodes : ∀ y ∈ x :: l2, y ∈ nodesOf h := by
          intro y hy
          obtain ⟨uv, huv, hor⟩ := mem_endpoint_of_mem hy hslen
          have hends := endpoints_mem_of_hasEdgeB hwf (hse uv huv)
          rcases hor with rfl | rfl
          · exact hends.1
          · exact hends.2
        have hmem2 : (x :: l2) ∈ allSimplePaths h x d :=
          allSimplePaths_complete rfl hl hse hsnd hslen hsnodes
        unfold hasPathB
        have : (allSimplePaths h x d).isEmpty = false := by
          rw [List.isEmpty_eq_false]
          exact List.ne_nil_of_mem hmem2
        rw [this]
        simp

/-! ### The shortest-path selection returns a genuine path -/

theorem minByWeight_foldl_mem (h : DiGraph) :
    ∀ (ps : List (List V)) (p0 : List V),
      (ps.foldl (fun best q =>
        if pathWeight h q < pathWeight h best then q else best) p0) ∈ p0 :: ps := by
  intro ps
  induction ps with
  | nil => intro p0; simp
  | cons q ps ih =>
      intro p0
      rw [List.foldl_cons]
      have := ih (if pathWeight h q < pathWeight h p0 then q else p0)
      by_cases hq : pathWeight h q < pathWeight h p0
      · rw [if_pos hq] at this
        rcases List.mem_cons.mp this with h1 | h1
        · rw [if_pos hq]
          rw [h1]
          simp
        · rw [if_pos hq]
          exact List.mem_cons_of_mem _ (List.mem_cons_of_mem _ h1)
      · rw [if_neg hq] at this
        rcases List.mem_cons.mp this with h1 | h1
        · rw [if_neg hq, h1]
          simp
        · rw [if_neg hq]
          exact List.mem_cons_of_mem _ (List.mem_cons_of_mem _ h1)

theorem shortestPathD_spec {h : DiGraph}
    (hwf : ∀ e ∈ h.edgeList, e.1 ∈ nodesOf h ∧ e.2.1 ∈ nodesOf h)
    {u d : V} (hp : hasPathB h u d = true) :
    (∀ x ∈ shortestPathD h u d, hasPathB h x d = true) ∧
    (∀ uv ∈ pathPairs (shortestPathD h u d), hasEdgeB h uv.1 uv.2 = true) := by
  by_cases hud : u = d
  · subst hud
    unfold shortestPathD
    rw [if_pos rfl]
    constructor
    · intro x hx
      rcases List.mem_singleton.mp hx with rfl
      exact hp
    · intro uv huv
      simp [pathPairs] at huv
  · unfold shortestPathD
    rw [if_neg hud]
    cases hsp : allSimplePaths h u d with
    | nil =>
        exfalso
        unfold hasPathB at hp
        rw [hsp] at hp
        simp at hp
        exact hud hp.1
    | cons p0 ps =>
        have hmem0 := minByWeight_foldl_mem h ps p0
        have hpm : (minByWeight h (p0 :: ps)).getD [] ∈ allSimplePaths h u d := by
          rw [hsp]
          unfold minByWeight
          simpa using hmem0
        constructor
        · intro x hx
          exact hasPathB_of_mem_simplePath hwf hpm hud hx
        · exact (allSimplePaths_sound hpm).2.2.2.1

/-! ### The routing-tree invariant -/

/-- The consistency invariant of a per-destination routing tree with
respect to the output network graph: every tree node can reach the
destination there, and every tree edge is an edge of the output network
graph carrying the model cost of its endpoints. -/
def TreeOk (m : Model) (gphy : DiGraph) (d : V) (t : DiGraph) : Prop :=
  (∀ v ∈ nodesOf t, hasPathB gphy v d = true) ∧
  (∀ e ∈ t.edgeList, e ∈ gphy.edgeList ∧ e.2.2 = some (m.costF e.1 e.2.1))

theorem treeOk_addNodeD {m : Model} {gphy : DiGraph} {d : V} {t : DiGraph}
    {v : V} {attr : Option String}
    (h : TreeOk m gphy d t) (hv : hasPathB gphy v d = true) :
    TreeOk m gphy d (addNodeD t v attr) := by
  unfold addNodeD
  by_cases hn : hasNodeB t v = true
  · rw [if_pos hn]
    exact h
  · rw [if_neg hn]
    constructor
    · intro y hy
      unfold nodesOf at hy
      simp only [List.map_append] at hy
      rcases List.mem_append.mp hy with h1 | h1
      · exact h.1 y h1
      · simp at h1
        rw [h1]
        exact hv
    · exact h.2

theorem treeOk_addEdgeD {m : Model} {gphy : DiGraph} {d : V} {t : DiGraph}
    {u v : V}
    (h : TreeOk m gphy d t)
    (hmem : (u, v, some (m.costF u v)) ∈ gphy.edgeList) :
    TreeOk m gphy d (addEdgeD t u v (some (m.costF u v))) := by
  unfold addEdgeD
  by_cases he : hasEdgeB t u v = true
  · rw [if_pos he]
    refine ⟨h.1, ?_⟩
    intro e hm
    simp only [List.mem_map] at hm
    obtain ⟨e0, he0, hfe⟩ := hm
    by_cases hk : (e0.1 == u && e0.2.1 == v) = true
    · rw [if_pos hk] at hfe
      rw [← hfe]
      exact ⟨hmem, rfl⟩
    · rw [if_neg hk] at hfe
      rw [← hfe]
      exact h.2 e0 he0
  · rw [if_neg he]
    refine ⟨h.1, ?_⟩
    intro e hm
    simp only [List.mem_append] at hm
    rcases hm with h1 | h1
    · exact h.2 e h1
    · simp at h1
      rw [h1]
      exact ⟨hmem, rfl⟩

theorem treeOk_addTreePath {m : Model} {gphy : DiGraph} {d : V} :
    ∀ (l : List (V × V)) (t : DiGraph),
      TreeOk m gphy d t →
      (∀ uv ∈ l, hasPathB gphy uv.1 d = true ∧ hasPathB gphy uv.2 d = true ∧
        (uv.1, uv.2, some (m.costF uv.1 uv.2)) ∈ gphy.edgeList) →
      TreeOk m gphy d (l.foldl (fun t uv =>
        let t1 := addNodeD t uv.1 (lookupAttr gphy uv.1)
        let t2 := addNodeD t1 uv.2 (lookupAttr gphy uv.2)
        addEdgeD t2 uv.1 uv.2 (some (m.costF uv.1 uv.2))) t) := by
  intro l
  induction l with
  | nil => intro t h _; exact h
  | cons uv rest ih =>
      intro t h hall
      rw [List.foldl_cons]
      obtain ⟨h1, h2, h3⟩ := hall uv (List.mem_cons_self _ _)
      apply ih
      · exact treeOk_addEdgeD (treeOk_addNodeD (treeOk_addNodeD h h1) h2) h3
      · intro x hx
        exact hall x (List.mem_cons_of_mem _ hx)

theorem treeOk_routingTreeFor {m : Model} {gphy : DiGraph} {d : V}
    (hwf : ∀ e ∈ gphy.edgeList, e.1 ∈ nodesOf gphy ∧ e.2.1 ∈ nodesOf gphy)
    (hedge : ∀ u v, hasEdgeB gphy u v = true →
      (u, v, some (m.costF u v)) ∈ gphy.edgeList)
    (registry : List V) :
    TreeOk m gphy d (routingTreeFor m gphy registry d) := by
  unfold routingTreeFor
  have hgen : ∀ (reg : List V) (t : DiGraph), TreeOk m gphy d t →
      TreeOk m gphy d (reg.foldl (fun t node =>
        if hasPathB gphy node d then
          addTreePath m gphy t (shortestPathD gphy node d)
        else t) t) := by
    intro reg
    induction reg with
    | nil => intro t h; exact h
    | cons node rest ih =>
        intro t h
        rw [List.foldl_cons]
        apply ih
        by_cases hn : hasPathB gphy node d = true
        · rw [if_pos hn]
          obtain ⟨hall, hpairs⟩ := shortestPathD_spec hwf hn
          unfold addTreePath
          apply treeOk_addTreePath _ _ h
          intro uv huv
          obtain ⟨hm1, hm2⟩ := mem_of_mem_pathPairs huv
          exact ⟨hall _ hm1, hall _ hm2, hedge _ _ (hpairs uv huv)⟩
        · rw [if_neg hn]
          exact h
  apply hgen
  exact ⟨by intro v hv; simp [nodesOf] at hv, by intro e he; simp at he⟩

theorem routingGraphs_treeOk {m : Model} {registry networks : List V}
    {g : DiGraph} {d : V} {t : DiGraph}
    (hmem : (d, t) ∈ getOutputRoutingGraphs m registry networks g) :
    TreeOk m (getOutputNetworkGraph m registry g) d t := by
  unfold getOutputRoutingGraphs at hmem
  simp only [List.mem_map] at hmem
  obtain ⟨d0, _, heq⟩ := hmem
  have hd : d0 = d := congrArg Prod.fst heq
  subst hd
  have ht : t = routingTreeFor m (getOutputNetworkGraph m registry g) registry d0 :=
    (congrArg Prod.snd heq).symm
  rw [ht]
  exact treeOk_routingTreeFor (outputNetworkGraph_wf m registry g)
    (fun u v h => outputNetworkGraph_hasEdgeB_mem h) registry

/-- C8: after a satisfiable solve, every routing tree the engine returns
for a destination network contains only nodes that can reach that
destination inside the output network graph, and every tree edge is an
edge of the output network graph carrying the same (model) cost. -/
theorem c8_routing_trees_consistent
    (m : Model) (registry networks : List V) (g : DiGraph) (d : V) (t : DiGraph)
    (hmem : (d, t) ∈ getOutputRoutingGraphs m registry networks g) :
    (∀ v ∈ nodesOf t,
      hasPathB (getOutputNetworkGraph m registry g) v d = true) ∧
    (∀ e ∈ t.edgeList,
      e ∈ (getOutputNetworkGraph m registry g).edgeList ∧
      e.2.2 = some (m.costF e.1 e.2.1)) :=
  routingGraphs_treeOk hmem

/-- The C8 witness model: edges A→B and B→N exist, every cost is 1. -/
def mC8 : Model :=
  ⟨fun u v => (u == "A" && v == "B") || (u == "B" && v == "N"),
   fun _ _ => 1⟩

/-- The routing tree the engine builds for destination N in the C8
witness scenario. -/
def treeC8 : DiGraph :=
  routingTreeFor mC8 (getOutputNetworkGraph mC8 ["A", "B", "N"] gW)
    ["A", "B", "N"] "N"

/-- Witness for C8 at the concrete scenario: registry A, B, N over the
triangle topology. -/
theorem c8_witness :
    (∀ v ∈ nodesOf treeC8,
      hasPathB (getOutputNetworkGraph mC8 ["A", "B", "N"] gW) v "N" = true) ∧
    (∀ e ∈ treeC8.edgeList,
      e ∈ (getOutputNetworkGraph mC8 ["A", "B", "N"] gW).edgeList ∧
      e.2.2 = some (mC8.costF e.1 e.2.1)) :=
  c8_routing_trees_consistent mC8 ["A", "B", "N"] ["N"] gW "N" treeC8
    (by decide)

/-! ### C2: fixed costs in the output views -/

/-- The input graph of the C2 counterexample: routers A and B, edge A→B
with no cost attribute. -/
def gC2base : DiGraph :=
  ⟨[("A", some NODE_TYPE), ("B", some NODE_TYPE)], [("A", "B", none)]⟩

/-- The graph after `_read_input_graph` writes the fixed cost 0 from the
initial configuration into the edge attribute. -/
def gC2annot : DiGraph :=
  ⟨[("A", some NODE_TYPE), ("B", some NODE_TYPE)], [("A", "B", some 0)]⟩

/-- The C2 counterexample model: the edge A→B exists with cost 7. -/
def mC2 : Model :=
  ⟨fun u v => u == "A" && v == "B",
   fun u v => if u == "A" && v == "B" then 7 else 0⟩

/-- C2 counterexample: the edge A→B is given the fixed cost 0 via a
`SetOSPFEdgeCost` initial configuration, but because the encoder tests
the attribute with a Python truthiness check (`if cost:`), it only
asserts `cost(A,B) >= 0`; the model `mC2` satisfies every produced
baseline constraint yet reports cost 7 ≠ 0 for that edge in the output,
so the round-trip identity fails for a fixed cost of zero. -/
theorem c2_counterexample_zero_fixed_cost :
    readInputGraph [⟨"A", "B", 0⟩] gC2base [] =
      Except.ok (gC2annot, baselineFormulas gC2annot []) ∧
    getCostAttr gC2annot "A" "B" = some 0 ∧
    satisfiesAll mC2 (baselineFormulas gC2annot []) = true ∧
    getOutputConfigs mC2 ["A", "B"] = [⟨"A", "B", 7⟩] :=
  ⟨rfl, rfl, by decide, by decide⟩

/-- C2 amended: for every edge whose (annotated) fixed cost is nonzero,
the baseline constraints pin the symbolic cost to that value, and every
output view — the configuration list, the output network graph and every
per-destination routing tree — reports exactly the fixed value.  A fixed
cost of zero is excluded: the truthiness test treats it as absent. -/
theorem c2_amended_nonzero_fixed_cost_roundtrip
    (g : DiGraph) (nn registry networks : List V) (m : Model) (u v : V) (c : Int)
    (hsat : satisfiesAll m (baselineFormulas g nn) = true)
    (hu : u ∈ nodesOf g) (hv : v ∈ nodesOf g) (hun : u ∉ nn) (hvn : v ∉ nn)
    (he : hasEdgeB g u v = true)
    (hc : getCostAttr g u v = some c) (hcne : c ≠ 0)
    (hur : u ∈ registry) (hvr : v ∈ registry) :
    m.costF u v = c ∧
    SetOSPFEdgeCost.mk u v c ∈ getOutputConfigs m registry ∧
    getCostAttr (getOutputNetworkGraph m registry g) u v = some c ∧
    (∀ d t, (d, t) ∈ getOutputRoutingGraphs m registry networks g →
      ∀ cc, (u, v, cc) ∈ t.edgeList → cc = some c) := by
  have hcostF : m.costF u v = c := baseline_costEq hsat hu hv hun hvn he hc hcne
  have hedgeB : m.edgeB u v = true := baseline_edge_true hsat hu hv hun hvn he
  refine ⟨hcostF, ?_, ?_, ?_⟩
  · unfold getOutputConfigs
    rw [List.mem_flatMap]
    refine ⟨u, hur, ?_⟩
    rw [List.mem_filterMap]
    refine ⟨v, hvr, ?_⟩
    rw [if_pos hedgeB, hcostF]
  · have hexists : (u, v, some (m.costF u v)) ∈
        (getOutputNetworkGraph m registry g).edgeList :=
      mem_outputNetworkGraph_edges hur hvr hedgeB
    unfold getCostAttr
    cases hf : (getOutputNetworkGraph m registry g).edgeList.find?
        (fun e => e.1 == u && e.2.1 == v) with
    | none =>
        exfalso
        rw [List.find?_eq_none] at hf
        exact absurd (by simp : ((u, v, some (m.costF u v)).1 == u &&
          (u, v, some (m.costF u v)).2.1 == v) = true) (by simpa using hf _ hexists)
    | some e0 =>
        have hkey := List.find?_some hf
        have hmem0 := List.mem_of_find?_eq_some hf
        have h1 : e0.1 = u := eq_of_beq ((Bool.and_eq_true _ _).mp hkey).1
        have h2 : e0.2.1 = v := eq_of_beq ((Bool.and_eq_true _ _).mp hkey).2
        have hshape := mem_outputNetworkGraph_edges_inv hmem0
        show e0.2.2 = some c
        rw [hshape.2.2.2, h1, h2, hcostF]
  · intro d t hmem cc hcc
    have := (routingGraphs_treeOk hmem).2 _ hcc
    simpa [hcostF] using this.2

/-- The C2 witness graph: routers A, B with fixed cost 9 on A→B. -/
def gC2w : DiGraph :=
  ⟨[("A", some NODE_TYPE), ("B", some NODE_TYPE)], [("A", "B", some 9)]⟩

/-- The C2 witness model: A→B exists with exactly the fixed cost 9. -/
def mC2w : Model :=
  ⟨fun u v => u == "A" && v == "B",
   fun u v => if u == "A" && v == "B" then 9 else 0⟩

/-- Witness for the amended C2: the nonzero fixed cost 9 round-trips
into every output view. -/
theorem c2_witness :
    mC2w.costF "A" "B" = 9 ∧
    SetOSPFEdgeCost.mk "A" "B" 9 ∈ getOutputConfigs mC2w ["A", "B"] ∧
    getCostAttr (getOutputNetworkGraph mC2w ["A", "B"] gC2w) "A" "B" = some 9 ∧
    (∀ d t, (d, t) ∈ getOutputRoutingGraphs mC2w ["A", "B"] ["B"] gC2w →
      ∀ cc, ("A", "B", cc) ∈ t.edgeList → cc = some 9) :=
  c2_amended_nonzero_fixed_cost_roundtrip gC2w [] ["A", "B"] ["B"] mC2w "A" "B" 9
    (by decide) (by decide) (by decide) (by decide) (by decide) (by decide)
    (by rfl) (by decide) (by decide) (by decide)

/-- C9: the three read-side extraction contracts are pure reads of the
solved session: none of them pushes, pops, asserts or re-solves, so each
leaves the session untouched and a second invocation against the
returned session yields the identical output. -/
theorem c9_extraction_idempotent (s : Session) :
    (getOutputConfigsS s).2 = s ∧
    (getOutputConfigsS ((getOutputConfigsS s).2)).1 = (getOutputConfigsS s).1 ∧
    (getOutputNetworkGraphS s).2 = s ∧
    (getOutputNetworkGraphS ((getOutputNetworkGraphS s).2)).1 =
      (getOutputNetworkGraphS s).1 ∧
    (getOutputRoutingGraphsS s).2 = s ∧
    (getOutputRoutingGraphsS ((getOutputRoutingGraphsS s).2)).1 =
      (getOutputRoutingGraphsS s).1 :=
  ⟨rfl, rfl, rfl, rfl, rfl, rfl⟩
